import Mathlib

/-!
Verification development for the fluxcd/pkg auxiliary libraries: a shallow
embedding in Lean 4 of the GitHub App authentication client
(`auth/github/client.go`), the gogit credential-cache helpers
(`git/gogit/cache.go`), the shell-style substitution template engine
(`envsubst/template.go`), the `runtime/controller` feature gates, and —
modelled from the design spec, since the `cache` package source is not part
of this snapshot — the expiring token store and singleflight coalescer.

Go errors are modelled by their message strings; Go `time.Time` and
`time.Duration` by `Int` (absolute nanoseconds / nanosecond durations);
Go byte slices holding textual key material by `String`.
-/

/-- A Go `error` value, modelled by its message string (equality of the
model value corresponds to propagating the identical error value). -/
abbrev GoError := String

/-! ## runtime/controller feature gates -/

namespace Controller

/-- The constant `FeatureGateDirectSourceFetch = "DirectSourceFetch"`. -/
def FeatureGateDirectSourceFetch : String := "DirectSourceFetch"

/-- A Go `map[string]bool`, modelled as a partial function from keys to
values (`none` = key absent). -/
def FeatureGates : Type := String → Option Bool

/-- `SetFeatureGates(features map[string]bool)` from the `controller`
package: sets `features[FeatureGateDirectSourceFetch] = false` (the gate is
disabled by default) and touches nothing else.  The Go function mutates the
map in place; the model returns the updated map. -/
def SetFeatureGates (features : FeatureGates) : FeatureGates :=
  fun k => if k = FeatureGateDirectSourceFetch then some false else features k

end Controller

/-! ## git/gogit cache helpers -/

namespace Gogit

/-- `cache.StoreObject[T]`: a value together with its cache key. -/
structure StoreObject (T : Type) where
  Object : T
  Key : String

/-- The store operations `cacheObject` can perform, recorded in call order
so that the order and the short-circuit on failure are observable. -/
inductive StoreOp where
  | set
  | setExpiration
deriving DecidableEq, Repr

/-- The `cache.Expirable[StoreObject T]` interface as seen by `cacheObject`:
each method's outcome is an oracle (`none` = success, `some e` = the Go
error returned). -/
structure Expirable (T : Type) where
  setResult : StoreObject T → Option GoError
  setExpirationResult : StoreObject T → Int → Option GoError

/-- `cacheObject` from `git/gogit/cache.go`: builds the `StoreObject`, calls
`store.Set(obj)`, returns its error if it fails, otherwise calls and returns
`store.SetExpiration(obj, expiresAt)`.  The model additionally returns the
list of store operations performed, in order. -/
def cacheObject {T : Type} (store : Expirable T) (creds : T) (key : String)
    (expiresAt : Int) : Option GoError × List StoreOp :=
  let obj : StoreObject T := ⟨creds, key⟩
  match store.setResult obj with
  | some err => (some err, [StoreOp.set])
  | none =>
    (store.setExpirationResult obj expiresAt, [StoreOp.set, StoreOp.setExpiration])

end Gogit

/-! ## SHA-256 (model of Go's `crypto/sha256.Sum256` + `%x` hex rendering) -/

namespace SHA256

/-- Right rotation of a 32-bit word held in a `Nat`. -/
def rotr (n x : Nat) : Nat := ((x >>> n) ||| (x <<< (32 - n))) % 4294967296

/-- Small sigma-0 of the SHA-256 message schedule. -/
def ssig0 (x : Nat) : Nat := rotr 7 x ^^^ rotr 18 x ^^^ (x >>> 3)

/-- Small sigma-1 of the SHA-256 message schedule. -/
def ssig1 (x : Nat) : Nat := rotr 17 x ^^^ rotr 19 x ^^^ (x >>> 10)

/-- Big Sigma-0 of the SHA-256 compression function. -/
def bsig0 (x : Nat) : Nat := rotr 2 x ^^^ rotr 13 x ^^^ rotr 22 x

/-- Big Sigma-1 of the SHA-256 compression function. -/
def bsig1 (x : Nat) : Nat := rotr 6 x ^^^ rotr 11 x ^^^ rotr 25 x

/-- The 64 SHA-256 round constants (FIPS 180-4), as decimal values. -/
def K : List Nat :=
  [1116352408, 1899447441, 3049323471, 3921009573, 961987163,
   1508970993, 2453635748, 2870763221, 3624381080, 310598401,
   607225278, 1426881987, 1925078388, 2162078206, 2614888103,
   3248222580, 3835390401, 4022224774, 264347078, 604807628,
   770255983, 1249150122, 1555081692, 1996064986, 2554220882,
   2821834349, 2952996808, 3210313671, 3336571891, 3584528711,
   113926993, 338241895, 666307205, 773529912, 1294757372,
   1396182291, 1695183700, 1986661051, 2177026350, 2456956037,
   2730485921, 2820302411, 3259730800, 3345764771, 3516065817,
   3600352804, 4094571909, 275423344, 430227734, 506948616,
   659060556, 883997877, 958139571, 1322822218, 1537002063,
   1747873779, 1955562222, 2024104815, 2227730452, 2361852424,
   2428436474, 2756734187, 3204031479, 3329325298]

/-- The eight SHA-256 working registers / hash words. -/
structure Hash8 where
  h0 : Nat
  h1 : Nat
  h2 : Nat
  h3 : Nat
  h4 : Nat
  h5 : Nat
  h6 : Nat
  h7 : Nat

/-- The SHA-256 initial hash value (FIPS 180-4), as decimal values. -/
def initHash : Hash8 :=
  ⟨1779033703, 3144134277, 1013904242, 2773480762,
   1359893119, 2600822924, 528734635, 1541459225⟩

/-- `n` bytes of `v` in big-endian order. -/
def toBytesBE (n v : Nat) : List Nat :=
  (List.range n).map (fun i => (v >>> (8 * (n - 1 - i))) % 256)

/-- SHA-256 padding: append `0x80`, zero bytes to 56 mod 64, then the
64-bit big-endian bit length. -/
def pad (msg : List Nat) : List Nat :=
  let len := msg.length
  let zeros := (55 + 64 - len % 64) % 64
  msg ++ [128] ++ List.replicate zeros 0 ++ toBytesBE 8 (8 * len)

/-- Split a byte list into 64-byte chunks. -/
def chunks64 : List Nat → List (List Nat)
  | [] => []
  | a :: l => (a :: l).take 64 :: chunks64 ((a :: l).drop 64)
termination_by l => l.length
decreasing_by simp [List.length_drop]; omega

/-- The `i`-th big-endian 32-bit word of a 64-byte chunk. -/
def word (chunk : List Nat) (i : Nat) : Nat :=
  chunk.getD (4 * i) 0 * 16777216 + chunk.getD (4 * i + 1) 0 * 65536 +
    chunk.getD (4 * i + 2) 0 * 256 + chunk.getD (4 * i + 3) 0

/-- The 64-word message schedule of a chunk. -/
def schedule (chunk : List Nat) : Array Nat :=
  (List.range 48).foldl
    (fun w _ =>
      let i := w.size
      w.push ((ssig1 (w.getD (i - 2) 0) + w.getD (i - 7) 0 +
               ssig0 (w.getD (i - 15) 0) + w.getD (i - 16) 0) % 4294967296))
    ((List.range 16).map (word chunk)).toArray

/-- One application of the SHA-256 compression function. -/
def compress (H : Hash8) (chunk : List Nat) : Hash8 :=
  let w := schedule chunk
  let r := (List.range 64).foldl
    (fun (r : Hash8) t =>
      let ch := (r.h4 &&& r.h5) ^^^ ((r.h4 ^^^ 4294967295) &&& r.h6)
      let temp1 := (r.h7 + bsig1 r.h4 + ch + K.getD t 0 + w.getD t 0) % 4294967296
      let maj := (r.h0 &&& r.h1) ^^^ (r.h0 &&& r.h2) ^^^ (r.h1 &&& r.h2)
      let temp2 := (bsig0 r.h0 + maj) % 4294967296
      ⟨(temp1 + temp2) % 4294967296, r.h0, r.h1, r.h2,
       (r.h3 + temp1) % 4294967296, r.h4, r.h5, r.h6⟩)
    H
  ⟨(H.h0 + r.h0) % 4294967296, (H.h1 + r.h1) % 4294967296, (H.h2 + r.h2) % 4294967296,
   (H.h3 + r.h3) % 4294967296, (H.h4 + r.h4) % 4294967296, (H.h5 + r.h5) % 4294967296,
   (H.h6 + r.h6) % 4294967296, (H.h7 + r.h7) % 4294967296⟩

/-- UTF-8 encoding of one character, as byte values. -/
def encodeUtf8Char (c : Char) : List Nat :=
  let n := c.toNat
  if n < 128 then [n]
  else if n < 2048 then [192 + n / 64, 128 + n % 64]
  else if n < 65536 then [224 + n / 4096, 128 + (n / 64) % 64, 128 + n % 64]
  else [240 + n / 262144, 128 + (n / 4096) % 64, 128 + (n / 64) % 64, 128 + n % 64]

/-- The UTF-8 bytes of a string (Go's `[]byte(s)`). -/
def utf8Bytes (s : String) : List Nat := (s.data.map encodeUtf8Char).flatten

/-- Lowercase hex digit for a value below 16. -/
def hexDigit (n : Nat) : Char := if n < 10 then Char.ofNat (48 + n) else Char.ofNat (87 + n)

/-- Eight lowercase hex digits of a 32-bit word. -/
def wordHex (v : Nat) : String :=
  String.mk ((List.range 8).map (fun i => hexDigit ((v >>> (4 * (7 - i))) % 16)))

/-- `fmt.Sprintf("%x", sha256.Sum256([]byte(s)))`: the SHA-256 digest of
the UTF-8 bytes of `s`, rendered as 64 lowercase hex characters. -/
def sha256hex (s : String) : String :=
  let final := (chunks64 (pad (utf8Bytes s))).foldl compress initHash
  wordHex final.h0 ++ wordHex final.h1 ++ wordHex final.h2 ++ wordHex final.h3 ++
    wordHex final.h4 ++ wordHex final.h5 ++ wordHex final.h6 ++ wordHex final.h7

end SHA256

/-! ## The `cache` package, modelled from the spec

The `cache` package (expiring store, singleflight coalescer, token-cache
facade) is a dependency of this snapshot whose source is not included; only
its spec, callers and tests are.  The definitions in this namespace are
therefore modelled from the design spec rather than translated from source.
-/

namespace Cache

/-- Modelled from the spec: the "involved object" descriptor
(kind/name/namespace) used purely to tag observability events. -/
structure InvolvedObject where
  kind : String
  name : String
  nspace : String
deriving DecidableEq, Repr

/-- Modelled from the spec: the observability event kinds
`{Hit, Miss, Produced}`. -/
inductive EventKind where
  | hit
  | miss
  | produced
deriving DecidableEq, Repr

/-- Modelled from the spec: the expiring store — a key-addressed map of
values with optional absolute expiry timestamps (`none` = no expiry set). -/
structure Store (V : Type) where
  entries : List (String × V × Option Int)

/-- Raw lookup of a store entry (value and expiry), without the expiration
check. -/
def Store.lookupEntry {V : Type} (s : Store V) (key : String) : Option (V × Option Int) :=
  (s.entries.find? (fun e => e.1 = key)).map (fun e => e.2)

/-- Modelled from the spec: `Get(key)` performs the lazy expiration check —
an entry whose expiry is before `now` behaves as a miss even if no
background sweep has run. -/
def Store.get {V : Type} (s : Store V) (now : Int) (key : String) : Option V :=
  match s.lookupEntry key with
  | none => none
  | some (v, none) => some v
  | some (v, some t) => if t < now then none else some v

/-- Modelled from the spec: `Set(key, value)` inserts or replaces the
entry, optionally together with its expiry. -/
def Store.set {V : Type} (s : Store V) (key : String) (v : V) (exp : Option Int) : Store V :=
  ⟨(key, v, exp) :: s.entries.filter (fun e => ¬ e.1 = key)⟩

/-- Modelled from the spec: `SetExpiration(key, time)` updates the expiry
of an existing key and surfaces a "not found" error on an absent key. -/
def Store.setExpiration {V : Type} (s : Store V) (key : String) (t : Int) :
    Except GoError (Store V) :=
  if s.entries.any (fun e => e.1 = key) then
    Except.ok ⟨s.entries.map (fun e => if e.1 = key then (e.1, e.2.1, some t) else e)⟩
  else Except.error "not found"

/-- Modelled from the spec: the background sweep removes the entries whose
expiry is before `now`. -/
def Store.sweep {V : Type} (s : Store V) (now : Int) : Store V :=
  ⟨s.entries.filter (fun e => match e.2.2 with
    | none => true
    | some t => ¬ t < now)⟩

/-- The outcome of one (sequential) `TokenCache.GetOrSet` call: the result,
the `fromCache` flag, the updated store, and the recorded events with their
involved-object tag. -/
structure GetOrSetResult (V : Type) where
  result : Except GoError V
  fromCache : Bool
  store : Store V
  events : List (EventKind × Option InvolvedObject)

/-- Modelled from the spec: the token-cache facade's `GetOrSet` in its
single-caller (sequential) semantics — look the key up in the store and
return a hit directly; otherwise run the producer, and on success store the
value with an expiry computed from the produced token's own declared
duration (`now + duration`); a producer error is propagated and nothing is
stored.  The involved object is used only to tag the emitted events. -/
def getOrSet {V : Type} (getDuration : Int → V → Int) (s : Store V) (now : Int)
    (key : String) (produce : Except GoError V) (involved : Option InvolvedObject) :
    GetOrSetResult V :=
  match s.get now key with
  | some v => ⟨Except.ok v, true, s, [(EventKind.hit, involved)]⟩
  | none =>
    match produce with
    | Except.error e => ⟨Except.error e, false, s, [(EventKind.miss, involved)]⟩
    | Except.ok v =>
      ⟨Except.ok v, false, s.set key v (some (now + getDuration now v)),
       [(EventKind.miss, involved), (EventKind.produced, involved)]⟩

end Cache

/-! ## auth/github client -/

namespace Github

/-- The key constants of `auth/github/client.go`. -/
def AppIDKey : String := "githubAppID"

/-- `AppInstallationIDKey = "githubAppInstallationID"`. -/
def AppInstallationIDKey : String := "githubAppInstallationID"

/-- `AppPrivateKey = "githubAppPrivateKey"`. -/
def AppPrivateKey : String := "githubAppPrivateKey"

/-- `AppBaseUrlKey = "githubAppBaseURL"`. -/
def AppBaseUrlKey : String := "githubAppBaseURL"

/-- `AppToken` from `auth/github/client.go`: a GitHub App installation
token and its absolute expiry. -/
structure AppToken where
  Token : String
  ExpiresAt : Int
deriving DecidableEq, Repr

/-- `AppToken.GetDuration`: `time.Until(at.ExpiresAt)`, i.e. the duration
from the current time until the token's expiry. -/
def AppToken.GetDuration (now : Int) (tok : AppToken) : Int := tok.ExpiresAt - now

/-- The external `ghinstallation.Transport`, abstracted to the parts the
client uses: its `BaseURL` field and the outcomes of its `Token(ctx)` and
`Expiry()` calls (network results, supplied as oracles). -/
structure GhTransport where
  BaseURL : String
  tokenResult : Except GoError String
  expiryResult : Except GoError Int

/-- `Client` from `auth/github/client.go`.  The private key bytes are
modelled as a string (`buildCacheKey` converts them with `string(...)`
anyway); the proxy URL as its rendered string (`none` = nil pointer); the
token-cache pointer as the cache contents at call time (`none` = nil).
`nspace` stands for the Go field `namespace`, a reserved word in Lean. -/
structure Client where
  appID : String
  installationID : String
  privateKey : String
  apiURL : String
  proxyURL : Option String
  ghTransport : Option GhTransport
  cache : Option (Cache.Store AppToken)
  kind : String
  name : String
  nspace : String

/-- `OptFunc` — an option mutating the client under construction. -/
def OptFunc : Type := Client → Client

/-- `WithInstllationID` (sic, source spelling) sets the installation ID. -/
def WithInstllationID (installationID : String) : OptFunc :=
  fun p => { p with installationID := installationID }

/-- `WithAppID` sets the app ID. -/
def WithAppID (appID : String) : OptFunc :=
  fun p => { p with appID := appID }

/-- `WithPrivateKey` sets the private key. -/
def WithPrivateKey (pk : String) : OptFunc :=
  fun p => { p with privateKey := pk }

/-- `WithAppBaseURL` sets the GitHub API endpoint. -/
def WithAppBaseURL (appBaseURL : String) : OptFunc :=
  fun p => { p with apiURL := appBaseURL }

/-- `WithProxyURL` sets the proxy URL used by the transport. -/
def WithProxyURL (proxyURL : Option String) : OptFunc :=
  fun p => { p with proxyURL := proxyURL }

/-- `WithCache` sets the token cache and the involved object (kind, name,
namespace) used for recording cache events. -/
def WithCache (c : Cache.Store AppToken) (kind name nspace : String) : OptFunc :=
  fun p => { p with cache := some c, kind := kind, name := name, nspace := nspace }

/-- Go `strconv.Atoi`: optional sign, decimal digits, 64-bit range check;
errors on the empty string, non-digit characters, and out-of-range
values. -/
def atoi (s : String) : Except GoError Int :=
  let (neg, ds) :=
    match s.data with
    | '+' :: rest => (false, rest)
    | '-' :: rest => (true, rest)
    | rest => (false, rest)
  if ds = [] ∨ ¬ ds.all Char.isDigit then Except.error "invalid syntax"
  else
    let n : Nat := ds.foldl (fun acc c => acc * 10 + (c.toNat - 48)) 0
    let v : Int := if neg then -(n : Int) else (n : Int)
    if v < -(2 ^ 63) ∨ (2 ^ 63 - 1 : Int) < v then Except.error "value out of range"
    else Except.ok v

/-- The zero-valued client `&Client{}` that `New` starts from. -/
def emptyClient : Client :=
  ⟨"", "", "", "", none, none, none, "", "", ""⟩

/-- The validation-and-construction chain of `New` after the options have
been applied to the zero client (the body of `New` from the first
validation on): validates `appID` (non-empty, `strconv.Atoi`),
`installationID` (non-empty, `strconv.Atoi`) and `privateKey` (non-empty)
in that order, then creates the installation transport via the external
`ghinstallation.New` (supplied as the oracle `ghNew`) and overrides its
`BaseURL` when `apiURL` is non-empty. -/
def newFrom (ghNew : Int → Int → String → Except GoError GhTransport)
    (p : Client) : Option Client × Option GoError :=
  if p.appID = "" then
    (none, some "app ID must be provided to use github app authentication")
  else
    match atoi p.appID with
    | Except.error e => (none, some ("invalid app id, err: " ++ e))
    | Except.ok appID =>
      if p.installationID = "" then
        (none, some "app installation ID must be provided to use github app authentication")
      else
        match atoi p.installationID with
        | Except.error e => (none, some ("invalid app installation id, err: " ++ e))
        | Except.ok installationID =>
          if p.privateKey = "" then
            (none, some "private key must be provided to use github app authentication")
          else
            match ghNew appID installationID p.privateKey with
            | Except.error e => (none, some e)
            | Except.ok tr =>
              let tr := if p.apiURL ≠ "" then { tr with BaseURL := p.apiURL } else tr
              (some { p with ghTransport := some tr }, none)

/-- `New(opts...)` from `auth/github/client.go`: applies the options to a
zero client, validates `appID` (non-empty, `strconv.Atoi`),
`installationID` (non-empty, `strconv.Atoi`) and `privateKey` (non-empty)
in that order, then creates the installation transport via the external
`ghinstallation.New` (supplied as the oracle `ghNew`) and overrides its
`BaseURL` when `apiURL` is non-empty.  Mirrors Go's
`(*Client, error)` return shape.  The proxy only configures the embedded
HTTP transport, which is external to the model. -/
def New (ghNew : Int → Int → String → Except GoError GhTransport)
    (opts : List OptFunc) : Option Client × Option GoError :=
  newFrom ghNew (opts.foldl (fun c o => o c) emptyClient)

/-- The raw key string `buildCacheKey` assembles before hashing:
the four `Sprintf("%s=%s", ...)` parts joined with `","`. -/
def Client.rawCacheKey (p : Client) : String :=
  AppIDKey ++ "=" ++ p.appID ++ "," ++
    AppInstallationIDKey ++ "=" ++ p.installationID ++ "," ++
    AppBaseUrlKey ++ "=" ++ p.apiURL ++ "," ++
    AppPrivateKey ++ "=" ++ p.privateKey

/-- `buildCacheKey` from `auth/github/client.go`: the SHA-256 of the raw
key, rendered as hex. -/
def Client.buildCacheKey (p : Client) : String :=
  SHA256.sha256hex p.rawCacheKey

/-- The `newToken` closure inside `GetToken`: calls the transport's
`Token(ctx)`, then `Expiry()`, propagating either error, and on success
returns the `AppToken`. -/
def newToken (tr : GhTransport) : Except GoError AppToken :=
  match tr.tokenResult with
  | Except.error e => Except.error e
  | Except.ok token =>
    match tr.expiryResult with
    | Except.error e => Except.error e
    | Except.ok expiresAt => Except.ok { Token := token, ExpiresAt := expiresAt }

/-- The involved-object option `GetToken` builds: only when kind, name and
namespace are all non-empty. -/
def Client.involvedObject (p : Client) : Option Cache.InvolvedObject :=
  if p.kind ≠ "" ∧ p.name ≠ "" ∧ p.nspace ≠ "" then
    some ⟨p.kind, p.name, p.nspace⟩
  else none

/-- `Client.GetToken` from `auth/github/client.go`: without a cache it
returns `newToken` directly; with a cache it builds the involved-object
option and calls the facade's `GetOrSet` with `buildCacheKey` and
`newToken`.  Returns the token result together with the cache contents
after the call (`none` when no cache is configured).  A nil transport
(impossible for a client built by `New`) is modelled as an error. -/
def Client.GetToken (p : Client) (now : Int) :
    Except GoError AppToken × Option (Cache.Store AppToken) :=
  match p.ghTransport with
  | none => (Except.error "nil transport", p.cache)
  | some tr =>
    match p.cache with
    | none => (newToken tr, none)
    | some s =>
      let r := Cache.getOrSet AppToken.GetDuration s now p.buildCacheKey
        (newToken tr) p.involvedObject
      (r.result, some r.store)

end Github

/-! ## envsubst template engine -/

namespace Envsubst

/-- The parse-tree nodes of `envsubst` (`parse.TextNode`, `parse.FuncNode`,
`parse.ListNode`).  A `FuncNode` carries the referenced parameter, the
operator name (empty for a bare `$VAR` reference) and argument subtrees. -/
inductive Node where
  | text (value : String)
  | funcN (param : String) (name : String) (args : List Node)
  | listN (nodes : List Node)
deriving Repr

/-- The substitution functions of the `envsubst` package (`funcs.go`, whose
bodies are outside this snapshot's scope): one opaque
`substituteFunc`-shaped function per source name, field names abbreviated
where Lean requires.  The claims settled here do not depend on the
bodies. -/
structure SubstFuncs where
  toLowerFirst : String → List String → String
  toLower : String → List String → String
  toUpperFirst : String → List String → String
  toUpper : String → List String → String
  toLen : String → List String → String
  trimShortestPre : String → List String → String
  trimLongestPre : String → List String → String
  trimShortestSuf : String → List String → String
  trimLongestSuf : String → List String → String
  toSubstr : String → List String → String
  replacePre : String → List String → String
  replaceSuf : String → List String → String
  replaceFirst : String → List String → String
  replaceAll : String → List String → String
  toDefault : String → List String → String

/-- `lookupFunc(name, args)` from `envsubst/template.go`: selects the
substitution function by operator name, with `toDefault` as the default
(the source also lists `"=" ":=" ":-" ":?" ":+" "-" "+"` explicitly, all
mapping to `toDefault`). -/
def lookupFunc (fs : SubstFuncs) (name : String) (args : Nat) :
    String → List String → String :=
  match name with
  | "," => fs.toLowerFirst
  | ",," => fs.toLower
  | "^" => fs.toUpperFirst
  | "^^" => fs.toUpper
  | "#" => if args = 0 then fs.toLen else fs.trimShortestPre
  | "##" => fs.trimLongestPre
  | "%" => fs.trimShortestSuf
  | "%%" => fs.trimLongestSuf
  | ":" => fs.toSubstr
  | "/#" => fs.replacePre
  | "/%" => fs.replaceSuf
  | "/" => fs.replaceFirst
  | "//" => fs.replaceAll
  | "=" => fs.toDefault
  | ":=" => fs.toDefault
  | ":-" => fs.toDefault
  | ":?" => fs.toDefault
  | ":+" => fs.toDefault
  | "-" => fs.toDefault
  | "+" => fs.toDefault
  | _ => fs.toDefault

/-- The only error `Template.eval` can produce:
`fmt.Errorf("%w: %q", errVarNotSet, node.Param)` — a wrap of
`errVarNotSet` recording the unset parameter. -/
inductive EvalErr where
  | varNotSet (param : String)
deriving DecidableEq, Repr

mutual

/-- `Template.eval`/`evalText`/`evalFunc` from `envsubst/template.go`.
The state's writer is a `bytes.Buffer` (writes never fail), modelled by
returning the written string; `evalFunc` evaluates the argument subtrees
into fresh buffers, propagating an argument error, then applies the mapper
to the parameter, fails with `errVarNotSet` on a bare reference
(`Name == ""`) to a parameter the mapper reports as absent, and otherwise
writes the selected function applied to the value and arguments. -/
def evalNode (fs : SubstFuncs) (mapper : String → String × Bool) :
    Node → Except EvalErr String
  | Node.text v => Except.ok v
  | Node.funcN param name args =>
    match evalArgs fs mapper args with
    | Except.error e => Except.error e
    | Except.ok argVals =>
      let vex := mapper param
      if name = "" ∧ vex.2 = false then Except.error (EvalErr.varNotSet param)
      else Except.ok (lookupFunc fs name argVals.length vex.1 argVals)
  | Node.listN ns => evalList fs mapper ns
termination_by n => sizeOf n

/-- The argument loop of `evalFunc`: each argument evaluated into a fresh
buffer, first error propagated. -/
def evalArgs (fs : SubstFuncs) (mapper : String → String × Bool) :
    List Node → Except EvalErr (List String)
  | [] => Except.ok []
  | n :: rest =>
    match evalNode fs mapper n with
    | Except.error e => Except.error e
    | Except.ok s =>
      match evalArgs fs mapper rest with
      | Except.error e => Except.error e
      | Except.ok ss => Except.ok (s :: ss)
termination_by ns => sizeOf ns

/-- `evalList`: the nodes evaluated in order into the shared writer, first
error propagated. -/
def evalList (fs : SubstFuncs) (mapper : String → String × Bool) :
    List Node → Except EvalErr String
  | [] => Except.ok ""
  | n :: rest =>
    match evalNode fs mapper n with
    | Except.error e => Except.error e
    | Except.ok s =>
      match evalList fs mapper rest with
      | Except.error e => Except.error e
      | Except.ok t => Except.ok (s ++ t)
termination_by ns => sizeOf ns

end

/-- `Template.Execute(mapping)`: evaluates the parsed tree's root against
the mapping, returning the substituted string or the evaluation error. -/
def Execute (root : Node) (fs : SubstFuncs) (mapper : String → String × Bool) :
    Except EvalErr String :=
  evalNode fs mapper root

mutual

/-- Specification-side predicate: the tree contains a bare variable
reference (`FuncNode` with empty `Name`) whose parameter the mapping
reports as not existing. -/
def hasBareUnset (mapper : String → String × Bool) : Node → Bool
  | Node.text _ => false
  | Node.funcN param name args =>
    hasBareUnsetList mapper args || (decide (name = "") && decide ((mapper param).2 = false))
  | Node.listN ns => hasBareUnsetList mapper ns
termination_by n => sizeOf n

/-- `hasBareUnset` over a node list. -/
def hasBareUnsetList (mapper : String → String × Bool) : List Node → Bool
  | [] => false
  | n :: rest => hasBareUnset mapper n || hasBareUnsetList mapper rest
termination_by ns => sizeOf ns

end

end Envsubst

/-! ## Singleflight coalescer, modelled from the spec

The coalescer's source is not part of this snapshot; the spec describes
`Do(key, producer)`: at most one producer invocation per key among
concurrently-overlapping calls, the result fanned out to every overlapping
caller, failures and results never cached between flights.  The model is a
small-step trace semantics: an interleaving of call starts and flight
completions, with the producer invoked exactly at flight creation.
-/

namespace Coalesce

/-- A trace event: `Do` call `c` starting for key `k`, or the in-flight
producer call for key `k` completing with result `r`, which releases all
of that flight's waiters. -/
inductive Ev where
  | start (c : Nat) (k : String)
  | finish (k : String) (r : Nat)
deriving DecidableEq, Repr

/-- An in-flight producer call: the call that triggered it, the trace
index at which it was created (the producer invocation point), and its
waiters paired with their start indices. -/
structure Flight where
  creator : Nat
  createdAt : Nat
  waiters : List (Nat × Nat)
deriving DecidableEq, Repr

/-- A completed flight: key, creator, creation index, finish index, the
shared result, and the waiters released together at the finish. -/
structure FlightRecord where
  key : String
  creator : Nat
  createdAt : Nat
  finishedAt : Nat
  result : Nat
  waiters : List (Nat × Nat)
deriving DecidableEq, Repr

/-- Coalescer state: the in-flight map (at most one flight per key), the
producer invocations so far (key and trace index), and the completed
flights. -/
structure CoState where
  flights : List (String × Flight)
  invs : List (String × Nat)
  done : List FlightRecord
deriving DecidableEq, Repr

/-- The in-flight entry for a key, if any. -/
def lookupFlight (fl : List (String × Flight)) (k : String) : Option Flight :=
  (fl.find? (fun e => e.1 == k)).map (fun e => e.2)

/-- Remove a key's in-flight entry. -/
def removeFlight (fl : List (String × Flight)) (k : String) : List (String × Flight) :=
  fl.filter (fun e => ¬ e.1 = k)

/-- Add a waiter (call id and start index) to an in-flight call. -/
def addWaiter (c i : Nat) (f : Flight) : Flight :=
  { f with waiters := (c, i) :: f.waiters }

/-- Modelled from the spec: one step of the coalescer.  A `start` joins the
existing in-flight call for its key as a waiter, or — when none is in
flight — creates a new flight, invoking the producer.  A `finish` requires
an in-flight call for its key (`none` = invalid trace) and completes it,
releasing all its waiters with the same result. -/
def step (st : CoState) (i : Nat) : Ev → Option CoState
  | Ev.start c k =>
    match lookupFlight st.flights k with
    | some _ =>
      some { st with flights := st.flights.map (fun e =>
        if e.1 = k then (e.1, addWaiter c i e.2) else e) }
    | none =>
      some { st with flights := (k, ⟨c, i, [(c, i)]⟩) :: st.flights,
                     invs := (k, i) :: st.invs }
  | Ev.finish k r =>
    match lookupFlight st.flights k with
    | none => none
    | some f =>
      some { st with flights := removeFlight st.flights k,
                     done := ⟨k, f.creator, f.createdAt, i, r, f.waiters⟩ :: st.done }

/-- Run the remaining trace from state `st` at trace index `i`. -/
def runFrom (st : CoState) (i : Nat) : List Ev → Option CoState
  | [] => some st
  | e :: rest =>
    match step st i e with
    | none => none
    | some st2 => runFrom st2 (i + 1) rest

/-- Run a trace from the empty state. -/
def run (tr : List Ev) : Option CoState :=
  runFrom ⟨[], [], []⟩ 0 tr

/-- The invariant carried through a run: flight and record indices are
consistent with the clock, at most one flight per key, completed same-key
flights are temporally disjoint, completed flights precede the key's
current flight, and producer invocations correspond one-to-one to flight
creations (pairwise-distinct indices below the clock). -/
def Inv (st : CoState) (i : Nat) : Prop :=
  (∀ k f, (k, f) ∈ st.flights →
    f.createdAt < i ∧
    (∀ c s, (c, s) ∈ f.waiters → f.createdAt ≤ s ∧ s < i) ∧
    (f.creator, f.createdAt) ∈ f.waiters ∧
    (k, f.createdAt) ∈ st.invs) ∧
  (st.flights.map Prod.fst).Nodup ∧
  (∀ F ∈ st.done,
    F.createdAt < F.finishedAt ∧ F.finishedAt ≤ i ∧
    (∀ c s, (c, s) ∈ F.waiters → F.createdAt ≤ s ∧ s < F.finishedAt) ∧
    (F.creator, F.createdAt) ∈ F.waiters ∧
    (F.key, F.createdAt) ∈ st.invs) ∧
  (∀ F1 ∈ st.done, ∀ F2 ∈ st.done, F1.key = F2.key →
    F1 = F2 ∨ F1.finishedAt ≤ F2.createdAt ∨ F2.finishedAt ≤ F1.createdAt) ∧
  (∀ F ∈ st.done, ∀ f, (F.key, f) ∈ st.flights → F.finishedAt ≤ f.createdAt) ∧
  (∀ e ∈ st.invs, e.2 < i) ∧
  st.invs.Pairwise (fun a b => a.2 ≠ b.2)

/-- A concrete trace: calls 1 and 2 overlap on key `x` (call 2 joins call
1's flight, which finishes with result 7); call 3 arrives later and
triggers a fresh flight finishing with result 9. -/
def exTrace : List Ev :=
  [Ev.start 1 "x", Ev.start 2 "x", Ev.finish "x" 7,
   Ev.start 3 "x", Ev.finish "x" 9]

/-- The state `exTrace` runs to. -/
def exState : CoState :=
  ⟨[], [("x", 3), ("x", 0)],
   [⟨"x", 3, 3, 4, 9, [(3, 3)]⟩, ⟨"x", 1, 0, 2, 7, [(2, 1), (1, 0)]⟩]⟩

end Coalesce

namespace Github

/-- A concrete client configuration used to evaluate the embedding. -/
def cexClientBase : Client :=
  { appID := "123", installationID := "456", privateKey := "private-key",
    apiURL := "", proxyURL := none, ghTransport := none, cache := none,
    kind := "", name := "", nspace := "" }

/-- A concrete transport whose `Token` call fails. -/
def trTokenErr : GhTransport :=
  { BaseURL := "", tokenResult := Except.error "boom", expiryResult := Except.ok 0 }

/-- A concrete client with a failing transport and no cache. -/
def cexClientTokenErr : Client :=
  { cexClientBase with ghTransport := some trTokenErr }

end Github

namespace Envsubst

/-- Identity substitution functions for concrete evaluation: every
substitution function returns the variable's value unchanged. -/
def idFuncs : SubstFuncs :=
  { toLowerFirst := fun v _ => v, toLower := fun v _ => v, toUpperFirst := fun v _ => v,
    toUpper := fun v _ => v, toLen := fun v _ => v, trimShortestPre := fun v _ => v,
    trimLongestPre := fun v _ => v, trimShortestSuf := fun v _ => v,
    trimLongestSuf := fun v _ => v, toSubstr := fun v _ => v, replacePre := fun v _ => v,
    replaceSuf := fun v _ => v, replaceFirst := fun v _ => v, replaceAll := fun v _ => v,
    toDefault := fun v _ => v }

/-- A concrete mapping that binds only `FOO`. -/
def fooMapper : String → String × Bool :=
  fun p => if p = "FOO" then ("bar", true) else ("", false)

end Envsubst

/-! ## Theorems -/

/-- `getOrSet` ignores the involved-object option everywhere except the
emitted events: result, `fromCache` flag and resulting store coincide for
any two involved-object settings. -/
theorem getOrSet_involved_only_tags_events {V : Type} (gd : Int → V → Int)
    (s : Cache.Store V) (now : Int) (key : String) (produce : Except GoError V)
    (i1 i2 : Option Cache.InvolvedObject) :
    (Cache.getOrSet gd s now key produce i1).result =
      (Cache.getOrSet gd s now key produce i2).result ∧
    (Cache.getOrSet gd s now key produce i1).fromCache =
      (Cache.getOrSet gd s now key produce i2).fromCache ∧
    (Cache.getOrSet gd s now key produce i1).store =
      (Cache.getOrSet gd s now key produce i2).store := by
  unfold Cache.getOrSet
  cases h : s.get now key with
  | some v => exact ⟨rfl, rfl, rfl⟩
  | none => cases produce with
    | error e => exact ⟨rfl, rfl, rfl⟩
    | ok v => exact ⟨rfl, rfl, rfl⟩

/-- C10: `SetFeatureGates(m)` sets `m["DirectSourceFetch"]` to `false`,
overwriting any value already present under that key, and leaves the value
of every other key unchanged. -/
theorem setFeatureGates_sets_direct_source_fetch_only (features : Controller.FeatureGates) :
    Controller.SetFeatureGates features Controller.FeatureGateDirectSourceFetch = some false ∧
    ∀ k : String, k ≠ Controller.FeatureGateDirectSourceFetch →
      Controller.SetFeatureGates features k = features k := by
  constructor
  · simp [Controller.SetFeatureGates]
  · intro k hk
    simp [Controller.SetFeatureGates, hk]

/-- Witness for C10 at a concrete map that already binds the key to `true`
and binds another key. -/
theorem setFeatureGates_sets_direct_source_fetch_only_witness :
    Controller.SetFeatureGates (fun _ => some true) Controller.FeatureGateDirectSourceFetch
      = some false ∧
    Controller.SetFeatureGates (fun _ => some true) "OtherGate" = some true :=
  ⟨(setFeatureGates_sets_direct_source_fetch_only (fun _ => some true)).1,
   (setFeatureGates_sets_direct_source_fetch_only (fun _ => some true)).2 "OtherGate"
     (by decide)⟩

/-- C7: `cacheObject` first calls `Set` and then `SetExpiration` with the
given expiry, returns `nil` iff both operations succeed, and when `Set`
fails returns its error without attempting `SetExpiration`. -/
theorem cacheObject_set_then_setExpiration {T : Type} (store : Gogit.Expirable T)
    (creds : T) (key : String) (expiresAt : Int) :
    let obj : Gogit.StoreObject T := ⟨creds, key⟩
    ((Gogit.cacheObject store creds key expiresAt).1 = none ↔
      store.setResult obj = none ∧ store.setExpirationResult obj expiresAt = none) ∧
    (store.setResult obj = none →
      Gogit.cacheObject store creds key expiresAt =
        (store.setExpirationResult obj expiresAt,
         [Gogit.StoreOp.set, Gogit.StoreOp.setExpiration])) ∧
    (∀ e : GoError, store.setResult obj = some e →
      Gogit.cacheObject store creds key expiresAt = (some e, [Gogit.StoreOp.set])) := by
  intro obj
  refine ⟨?_, ?_, ?_⟩
  · unfold Gogit.cacheObject
    cases h : store.setResult obj with
    | some e => simp [h]
    | none => simp [h]
  · intro h
    unfold Gogit.cacheObject
    simp [h]
  · intro e h
    unfold Gogit.cacheObject
    simp [h]

/-- Witness for C7 at a concrete store whose `Set` succeeds and whose
`SetExpiration` succeeds. -/
theorem cacheObject_set_then_setExpiration_witness :
    (Gogit.cacheObject
        (⟨fun _ => none, fun _ _ => none⟩ : Gogit.Expirable Nat) 7 "k" 100).1 = none := by
  have h := cacheObject_set_then_setExpiration
    (⟨fun _ => none, fun _ _ => none⟩ : Gogit.Expirable Nat) 7 "k" 100
  exact h.1.mpr ⟨rfl, rfl⟩

/-- C1 (amended): `buildCacheKey` is a function of exactly the four
credential-selecting fields appID, installationID, apiURL and privateKey —
clients agreeing on those four fields receive identical keys — while the
proxy configuration does not enter the key at all: changing the proxy via
`WithProxyURL` leaves the key unchanged. -/
theorem buildCacheKey_from_credential_fields (c1 c2 : Github.Client) (p : Option String)
    (h1 : c1.appID = c2.appID) (h2 : c1.installationID = c2.installationID)
    (h3 : c1.apiURL = c2.apiURL) (h4 : c1.privateKey = c2.privateKey) :
    c1.buildCacheKey = c2.buildCacheKey ∧
    (Github.WithProxyURL p c1).buildCacheKey = c1.buildCacheKey := by
  have hraw : c1.rawCacheKey = c2.rawCacheKey := by
    unfold Github.Client.rawCacheKey
    rw [h1, h2, h3, h4]
  exact ⟨congrArg SHA256.sha256hex hraw, rfl⟩

/-- Witness for C1's amended theorem: two concrete clients agreeing on the
four credential fields (but differing in the involved-object kind), and a
concrete proxy change. -/
theorem buildCacheKey_from_credential_fields_witness :
    Github.cexClientBase.buildCacheKey =
      ({ Github.cexClientBase with kind := "Kustomization" } : Github.Client).buildCacheKey ∧
    (Github.WithProxyURL (some "http://proxy.example:8080") Github.cexClientBase).buildCacheKey =
      Github.cexClientBase.buildCacheKey :=
  buildCacheKey_from_credential_fields Github.cexClientBase
    { Github.cexClientBase with kind := "Kustomization" }
    (some "http://proxy.example:8080") rfl rfl rfl rfl

/-- C1 counterexample: two clients whose configurations select different
credentials — they differ in their proxy configuration — receive the *same*
cache key, because `buildCacheKey` hashes only appID, installationID,
apiURL and privateKey. -/
theorem buildCacheKey_proxy_collision_counterexample :
    (Github.WithProxyURL (some "http://proxy.example:8080") Github.cexClientBase).proxyURL ≠
      Github.cexClientBase.proxyURL ∧
    (Github.WithProxyURL (some "http://proxy.example:8080") Github.cexClientBase).buildCacheKey =
      Github.cexClientBase.buildCacheKey :=
  ⟨by simp [Github.WithProxyURL, Github.cexClientBase], rfl⟩

/-- C3: a `Get` for a key whose entry has expiry earlier than the current
time returns not-found — the expiration check happens lazily inside `Get`
itself, with no background sweep involved. -/
theorem store_get_expired_key_is_miss {V : Type} (s : Cache.Store V) (now : Int)
    (key : String) (v : V) (t : Int)
    (hentry : s.lookupEntry key = some (v, some t)) (hexp : t < now) :
    s.get now key = none := by
  unfold Cache.Store.get
  rw [hentry]
  simp [hexp]

/-- Witness for C3: a concrete store holding an entry expired at time 5,
read at time 10. -/
theorem store_get_expired_key_is_miss_witness :
    (⟨[("k", 42, some 5)]⟩ : Cache.Store Nat).get 10 "k" = none :=
  store_get_expired_key_is_miss ⟨[("k", 42, some 5)]⟩ 10 "k" 42 5 rfl (by decide)

/-- `GetToken` is determined by the transport, the cache contents and the
cache key — two clients agreeing on those three return identical results
regardless of their involved-object fields. -/
theorem getToken_independent_of_involved (a b : Github.Client) (now : Int)
    (htr : a.ghTransport = b.ghTransport) (hc : a.cache = b.cache)
    (hkey : a.buildCacheKey = b.buildCacheKey) :
    a.GetToken now = b.GetToken now := by
  unfold Github.Client.GetToken
  simp only [htr, hc, hkey]
  cases hb : b.ghTransport with
  | none => rfl
  | some tr =>
    cases hcb : b.cache with
    | none => rfl
    | some s =>
      have h := getOrSet_involved_only_tags_events Github.AppToken.GetDuration s now
        b.buildCacheKey (Github.newToken tr) a.involvedObject b.involvedObject
      exact Prod.ext h.1 (congrArg some h.2.2)

/-- C4: the involved-object descriptor set through `WithCache` never
affects the cache key, and the whole `GetToken` outcome (token result and
resulting cache contents) is identical across any two kind/name/namespace
settings over the same cache and otherwise identical configuration. -/
theorem involved_object_never_affects_key_or_token (c : Github.Client)
    (s : Cache.Store Github.AppToken) (now : Int)
    (k1 n1 ns1 k2 n2 ns2 : String) :
    (Github.WithCache s k1 n1 ns1 c).buildCacheKey =
      (Github.WithCache s k2 n2 ns2 c).buildCacheKey ∧
    (Github.WithCache s k1 n1 ns1 c).GetToken now =
      (Github.WithCache s k2 n2 ns2 c).GetToken now := by
  refine ⟨rfl, getToken_independent_of_involved _ _ now rfl rfl rfl⟩

/-- C5: with a transport configured, `GetToken` yields either a usable
token or exactly the error of the failed production: without a cache, and
on a cache miss, the result is precisely `newToken tr`; every error is a
`Token()`/`Expiry()` failure propagated unchanged; the cache layer adds no
failure mode. -/
theorem getToken_usable_token_or_production_error (c : Github.Client)
    (tr : Github.GhTransport) (now : Int) (htr : c.ghTransport = some tr) :
    ((∃ t, (c.GetToken now).1 = Except.ok t) ∨
     (∃ e, (c.GetToken now).1 = Except.error e ∧
           Github.newToken tr = Except.error e)) ∧
    (c.cache = none → (c.GetToken now).1 = Github.newToken tr) ∧
    (∀ s, c.cache = some s → s.get now c.buildCacheKey = none →
      (c.GetToken now).1 = Github.newToken tr) ∧
    (∀ e, Github.newToken tr = Except.error e →
      tr.tokenResult = Except.error e ∨ tr.expiryResult = Except.error e) := by
  have hnone : c.cache = none → (c.GetToken now).1 = Github.newToken tr := by
    intro hc
    unfold Github.Client.GetToken
    simp only [htr, hc]
  have hhit : ∀ s v, c.cache = some s → s.get now c.buildCacheKey = some v →
      (c.GetToken now).1 = Except.ok v := by
    intro s v hc hg
    unfold Github.Client.GetToken Cache.getOrSet
    simp only [htr, hc, hg]
  have hmiss : ∀ s, c.cache = some s → s.get now c.buildCacheKey = none →
      (c.GetToken now).1 = Github.newToken tr := by
    intro s hc hg
    unfold Github.Client.GetToken Cache.getOrSet
    simp only [htr, hc, hg]
    cases Github.newToken tr <;> rfl
  have hprod : ∀ e, Github.newToken tr = Except.error e →
      tr.tokenResult = Except.error e ∨ tr.expiryResult = Except.error e := by
    intro e he
    unfold Github.newToken at he
    cases ht : tr.tokenResult with
    | error e2 =>
      simp only [ht] at he
      injection he with h
      exact Or.inl (by rw [h])
    | ok s2 =>
      simp only [ht] at he
      cases hx : tr.expiryResult with
      | error e3 =>
        simp only [hx] at he
        injection he with h
        exact Or.inr (by rw [h])
      | ok x =>
        simp only [hx] at he
        exact Except.noConfusion he
  have hcases : (∃ t, Github.newToken tr = Except.ok t) ∨
      (∃ e, Github.newToken tr = Except.error e) := by
    cases Github.newToken tr with
    | ok t => exact Or.inl ⟨t, rfl⟩
    | error e => exact Or.inr ⟨e, rfl⟩
  refine ⟨?_, hnone, hmiss, hprod⟩
  cases hc : c.cache with
  | none =>
    rcases hcases with ⟨t, hnt⟩ | ⟨e, hnt⟩
    · exact Or.inl ⟨t, by rw [hnone hc, hnt]⟩
    · exact Or.inr ⟨e, by rw [hnone hc, hnt], hnt⟩
  | some s =>
    cases hg : s.get now c.buildCacheKey with
    | some v => exact Or.inl ⟨v, hhit s v hc hg⟩
    | none =>
      rcases hcases with ⟨t, hnt⟩ | ⟨e, hnt⟩
      · exact Or.inl ⟨t, by rw [hmiss s hc hg, hnt]⟩
      · exact Or.inr ⟨e, by rw [hmiss s hc hg, hnt], hnt⟩

/-- Witness for C5: a concrete uncached client whose transport's `Token`
call fails with "boom"; `GetToken` returns exactly that error. -/
theorem getToken_usable_token_or_production_error_witness :
    (Github.cexClientTokenErr.GetToken 0).1 = Github.newToken Github.trTokenErr ∧
    (Github.cexClientTokenErr.GetToken 0).1 = Except.error "boom" := by
  have h := getToken_usable_token_or_production_error Github.cexClientTokenErr
    Github.trTokenErr 0 rfl
  exact ⟨h.2.1 rfl, by rw [h.2.1 rfl]; rfl⟩

/-- C6: `GetDuration` returns exactly the duration from the current time
until the token's `ExpiresAt`, and the facade stores a freshly produced
token with entry expiry `now + GetDuration`, i.e. exactly the token's own
declared `ExpiresAt`. -/
theorem getDuration_is_time_until_expiry (now : Int) (tok : Github.AppToken)
    (s : Cache.Store Github.AppToken) (key : String)
    (inv : Option Cache.InvolvedObject) (hmiss : s.get now key = none) :
    Github.AppToken.GetDuration now tok = tok.ExpiresAt - now ∧
    (Cache.getOrSet Github.AppToken.GetDuration s now key
        (Except.ok tok) inv).store.lookupEntry key =
      some (tok, some tok.ExpiresAt) := by
  refine ⟨rfl, ?_⟩
  unfold Cache.getOrSet
  rw [hmiss]
  unfold Cache.Store.set Cache.Store.lookupEntry
  simp [List.find?, Github.AppToken.GetDuration]

/-- Witness for C6: an empty store, `now = 0`, a token expiring at 100. -/
theorem getDuration_is_time_until_expiry_witness :
    Github.AppToken.GetDuration 0 ⟨"t", 100⟩ = 100 - 0 ∧
    (Cache.getOrSet Github.AppToken.GetDuration ⟨[]⟩ 0 "k"
        (Except.ok ⟨"t", 100⟩) none).store.lookupEntry "k" =
      some (⟨"t", 100⟩, some 100) :=
  getDuration_is_time_until_expiry 0 ⟨"t", 100⟩ ⟨[]⟩ "k" none rfl

/-- C8: `New` validates its configuration — it errors whenever the appID
is empty or rejected by `strconv.Atoi`, the installationID is empty or
rejected by `strconv.Atoi`, or the privateKey is empty; it never returns
nil client together with nil error; and on success the returned client has
a configured installation transport. -/
theorem new_validates_configuration
    (ghNew : Int → Int → String → Except GoError Github.GhTransport)
    (opts : List Github.OptFunc) :
    ¬ ((Github.New ghNew opts).1 = none ∧ (Github.New ghNew opts).2 = none) ∧
    (((opts.foldl (fun c o => o c) Github.emptyClient).appID = "" ∨
      (∃ e, Github.atoi (opts.foldl (fun c o => o c) Github.emptyClient).appID
        = Except.error e) ∨
      (opts.foldl (fun c o => o c) Github.emptyClient).installationID = "" ∨
      (∃ e, Github.atoi (opts.foldl (fun c o => o c) Github.emptyClient).installationID
        = Except.error e) ∨
      (opts.foldl (fun c o => o c) Github.emptyClient).privateKey = "") →
      (Github.New ghNew opts).1 = none ∧ (Github.New ghNew opts).2 ≠ none) ∧
    ((Github.New ghNew opts).2 = none →
      ∃ cl, (Github.New ghNew opts).1 = some cl ∧ cl.ghTransport ≠ none) := by
  unfold Github.New
  generalize (opts.foldl (fun c o => o c) Github.emptyClient) = p
  unfold Github.newFrom
  by_cases h1 : p.appID = ""
  · simp only [if_pos h1]
    exact ⟨by simp, fun _ => by simp, by simp⟩
  · simp only [if_neg h1]
    cases h2 : Github.atoi p.appID with
    | error e =>
      exact ⟨by simp, fun _ => by simp, by simp⟩
    | ok a =>
      by_cases h3 : p.installationID = ""
      · simp only [if_pos h3]
        exact ⟨by simp, fun _ => by simp, by simp⟩
      · simp only [if_neg h3]
        cases h4 : Github.atoi p.installationID with
        | error e =>
          exact ⟨by simp, fun _ => by simp, by simp⟩
        | ok b =>
          by_cases h5 : p.privateKey = ""
          · simp only [if_pos h5]
            exact ⟨by simp, fun _ => by simp, by simp⟩
          · simp only [if_neg h5]
            cases h6 : ghNew a b p.privateKey with
            | error e =>
              exact ⟨by simp, fun _ => by simp, by simp⟩
            | ok tr =>
              refine ⟨by simp, ?_, ?_⟩
              · intro hbad
                rcases hbad with h | ⟨e, he⟩ | h | ⟨e, he⟩ | h
                · exact absurd h h1
                · exact Except.noConfusion he
                · exact absurd h h3
                · exact Except.noConfusion he
                · exact absurd h h5
              · intro _
                exact ⟨_, rfl, by simp⟩

/-- Witness for C8: `New` with no options (so every field empty) errors,
returning a nil client and a non-nil error. -/
theorem new_validates_configuration_witness :
    (Github.New (fun _ _ pk =>
        Except.ok { BaseURL := "", tokenResult := Except.ok pk,
                    expiryResult := Except.ok 0 }) []).1 = none ∧
    (Github.New (fun _ _ pk =>
        Except.ok { BaseURL := "", tokenResult := Except.ok pk,
                    expiryResult := Except.ok 0 }) []).2 ≠ none :=
  (new_validates_configuration _ []).2.1 (Or.inl rfl)

mutual

/-- Evaluation of an envsubst node errs exactly when the subtree contains a
bare unset variable reference. -/
theorem evalNode_error_iff (fs : Envsubst.SubstFuncs)
    (mapper : String → String × Bool) :
    (n : Envsubst.Node) →
    ((∃ e, Envsubst.evalNode fs mapper n = Except.error e) ↔
      Envsubst.hasBareUnset mapper n = true)
  | Envsubst.Node.text v => by
    simp [Envsubst.evalNode, Envsubst.hasBareUnset]
  | Envsubst.Node.funcN param name args => by
    have hargs := evalArgs_error_iff fs mapper args
    simp only [Envsubst.evalNode, Envsubst.hasBareUnset]
    cases h : Envsubst.evalArgs fs mapper args with
    | error e =>
      have hl : Envsubst.hasBareUnsetList mapper args = true := hargs.mp ⟨e, h⟩
      simp [hl]
    | ok argVals =>
      have hl : Envsubst.hasBareUnsetList mapper args = false := by
        rcases hb : Envsubst.hasBareUnsetList mapper args with _ | _
        · rfl
        · rcases hargs.mpr hb with ⟨e, he⟩
          rw [h] at he
          exact Except.noConfusion he
      by_cases hc : name = "" ∧ (mapper param).2 = false
      · simp [hl, hc]
      · simp [hl, hc]
  | Envsubst.Node.listN ns => by
    have hns := evalList_error_iff fs mapper ns
    simp only [Envsubst.evalNode, Envsubst.hasBareUnset]
    exact hns
termination_by n => sizeOf n

/-- `evalNode_error_iff` for the argument loop. -/
theorem evalArgs_error_iff (fs : Envsubst.SubstFuncs)
    (mapper : String → String × Bool) :
    (ns : List Envsubst.Node) →
    ((∃ e, Envsubst.evalArgs fs mapper ns = Except.error e) ↔
      Envsubst.hasBareUnsetList mapper ns = true)
  | [] => by
    simp [Envsubst.evalArgs, Envsubst.hasBareUnsetList]
  | n :: rest => by
    have hn := evalNode_error_iff fs mapper n
    have hr := evalArgs_error_iff fs mapper rest
    simp only [Envsubst.evalArgs, Envsubst.hasBareUnsetList]
    cases h1 : Envsubst.evalNode fs mapper n with
    | error e =>
      have hl := hn.mp ⟨e, h1⟩
      simp [hl]
    | ok s =>
      have hnf : Envsubst.hasBareUnset mapper n = false := by
        rcases hb : Envsubst.hasBareUnset mapper n with _ | _
        · rfl
        · rcases hn.mpr hb with ⟨e, he⟩
          rw [h1] at he
          exact Except.noConfusion he
      cases h2 : Envsubst.evalArgs fs mapper rest with
      | error e =>
        have hl := hr.mp ⟨e, h2⟩
        simp [hnf, hl]
      | ok ss =>
        have hrf : Envsubst.hasBareUnsetList mapper rest = false := by
          rcases hb : Envsubst.hasBareUnsetList mapper rest with _ | _
          · rfl
          · rcases hr.mpr hb with ⟨e, he⟩
            rw [h2] at he
            exact Except.noConfusion he
        simp [hnf, hrf]
termination_by ns => sizeOf ns

/-- `evalNode_error_iff` for list nodes. -/
theorem evalList_error_iff (fs : Envsubst.SubstFuncs)
    (mapper : String → String × Bool) :
    (ns : List Envsubst.Node) →
    ((∃ e, Envsubst.evalList fs mapper ns = Except.error e) ↔
      Envsubst.hasBareUnsetList mapper ns = true)
  | [] => by
    simp [Envsubst.evalList, Envsubst.hasBareUnsetList]
  | n :: rest => by
    have hn := evalNode_error_iff fs mapper n
    have hr := evalList_error_iff fs mapper rest
    simp only [Envsubst.evalList, Envsubst.hasBareUnsetList]
    cases h1 : Envsubst.evalNode fs mapper n with
    | error e =>
      have hl := hn.mp ⟨e, h1⟩
      simp [hl]
    | ok s =>
      have hnf : Envsubst.hasBareUnset mapper n = false := by
        rcases hb : Envsubst.hasBareUnset mapper n with _ | _
        · rfl
        · rcases hn.mpr hb with ⟨e, he⟩
          rw [h1] at he
          exact Except.noConfusion he
      cases h2 : Envsubst.evalList fs mapper rest with
      | error e =>
        have hl := hr.mp ⟨e, h2⟩
        simp [hnf, hl]
      | ok ss =>
        have hrf : Envsubst.hasBareUnsetList mapper rest = false := by
          rcases hb : Envsubst.hasBareUnsetList mapper rest with _ | _
          · rfl
          · rcases hr.mpr hb with ⟨e, he⟩
            rw [h2] at he
            exact Except.noConfusion he
        simp [hnf, hrf]
termination_by ns => sizeOf ns

end

mutual

/-- When evaluation fails with `varNotSet p`, the mapping indeed reports
`p` as not existing. -/
theorem evalNode_error_param (fs : Envsubst.SubstFuncs)
    (mapper : String → String × Bool) (p : String) :
    (n : Envsubst.Node) →
    Envsubst.evalNode fs mapper n = Except.error (Envsubst.EvalErr.varNotSet p) →
    (mapper p).2 = false
  | Envsubst.Node.text v => by
    simp [Envsubst.evalNode]
  | Envsubst.Node.funcN param name args => by
    intro he
    simp only [Envsubst.evalNode] at he
    cases h : Envsubst.evalArgs fs mapper args with
    | error e =>
      rw [h] at he
      injection he with h2
      exact evalArgs_error_param fs mapper p args (h2 ▸ h)
    | ok argVals =>
      by_cases hc : name = "" ∧ (mapper param).2 = false
      · simp only [h, if_pos hc] at he
        injection he with h2
        injection h2 with h3
        rw [← h3]
        exact hc.2
      · simp only [h, if_neg hc] at he
        exact Except.noConfusion he
  | Envsubst.Node.listN ns => by
    intro he
    simp only [Envsubst.evalNode] at he
    exact evalList_error_param fs mapper p ns he
termination_by n => sizeOf n

/-- `evalNode_error_param` for the argument loop. -/
theorem evalArgs_error_param (fs : Envsubst.SubstFuncs)
    (mapper : String → String × Bool) (p : String) :
    (ns : List Envsubst.Node) →
    Envsubst.evalArgs fs mapper ns = Except.error (Envsubst.EvalErr.varNotSet p) →
    (mapper p).2 = false
  | [] => by
    simp [Envsubst.evalArgs]
  | n :: rest => by
    intro he
    simp only [Envsubst.evalArgs] at he
    cases h1 : Envsubst.evalNode fs mapper n with
    | error e =>
      rw [h1] at he
      injection he with h2
      exact evalNode_error_param fs mapper p n (h2 ▸ h1)
    | ok s =>
      rw [h1] at he
      cases h2 : Envsubst.evalArgs fs mapper rest with
      | error e =>
        rw [h2] at he
        injection he with h3
        exact evalArgs_error_param fs mapper p rest (h3 ▸ h2)
      | ok ss =>
        rw [h2] at he
        exact Except.noConfusion he
termination_by ns => sizeOf ns

/-- `evalNode_error_param` for list nodes. -/
theorem evalList_error_param (fs : Envsubst.SubstFuncs)
    (mapper : String → String × Bool) (p : String) :
    (ns : List Envsubst.Node) →
    Envsubst.evalList fs mapper ns = Except.error (Envsubst.EvalErr.varNotSet p) →
    (mapper p).2 = false
  | [] => by
    simp [Envsubst.evalList]
  | n :: rest => by
    intro he
    simp only [Envsubst.evalList] at he
    cases h1 : Envsubst.evalNode fs mapper n with
    | error e =>
      rw [h1] at he
      injection he with h2
      exact evalNode_error_param fs mapper p n (h2 ▸ h1)
    | ok s =>
      rw [h1] at he
      cases h2 : Envsubst.evalList fs mapper rest with
      | error e =>
        rw [h2] at he
        injection he with h3
        exact evalList_error_param fs mapper p rest (h3 ▸ h2)
      | ok ss =>
        rw [h2] at he
        exact Except.noConfusion he
termination_by ns => sizeOf ns

end

/-- C9: `Template.Execute` fails — necessarily with a wrap of
`errVarNotSet` recording a parameter the mapping reports as unset — iff
evaluation reaches a bare variable reference (`FuncNode` with empty name)
whose parameter does not exist; otherwise it succeeds, substituting each
variable reference via the function `lookupFunc` selects for its operator
name. -/
theorem execute_strict_mode_errVarNotSet (fs : Envsubst.SubstFuncs)
    (mapper : String → String × Bool) (root : Envsubst.Node) :
    ((∃ e, Envsubst.Execute root fs mapper = Except.error e) ↔
      Envsubst.hasBareUnset mapper root = true) ∧
    (∀ p, Envsubst.Execute root fs mapper =
        Except.error (Envsubst.EvalErr.varNotSet p) → (mapper p).2 = false) ∧
    (∀ param name args argVals,
      Envsubst.evalArgs fs mapper args = Except.ok argVals →
      ¬ (name = "" ∧ (mapper param).2 = false) →
      Envsubst.evalNode fs mapper (Envsubst.Node.funcN param name args) =
        Except.ok (Envsubst.lookupFunc fs name argVals.length
          (mapper param).1 argVals)) := by
  refine ⟨evalNode_error_iff fs mapper root,
          fun p => evalNode_error_param fs mapper p root, ?_⟩
  intro param name args argVals hargs hc
  simp only [Envsubst.evalNode, hargs]
  rw [if_neg hc]

/-- Witness for C9 at a concrete template `${FOO}` under a mapping binding
`FOO` to `"bar"`: evaluation succeeds with the default substitution
function applied to the value. -/
theorem execute_strict_mode_errVarNotSet_witness :
    Envsubst.evalNode Envsubst.idFuncs Envsubst.fooMapper
        (Envsubst.Node.funcN "FOO" "" []) =
      Except.ok (Envsubst.lookupFunc Envsubst.idFuncs ""
        (List.length ([] : List String)) (Envsubst.fooMapper "FOO").1 []) :=
  (execute_strict_mode_errVarNotSet Envsubst.idFuncs Envsubst.fooMapper
      (Envsubst.Node.funcN "FOO" "" [])).2.2 "FOO" "" [] []
    (by simp [Envsubst.evalArgs])
    (by simp [Envsubst.fooMapper])

/-- A successful `lookupFlight` is a membership in the in-flight map. -/
theorem lookupFlight_mem {fl : List (String × Coalesce.Flight)} {k : String}
    {f : Coalesce.Flight} (h : Coalesce.lookupFlight fl k = some f) : (k, f) ∈ fl := by
  unfold Coalesce.lookupFlight at h
  cases hf : fl.find? (fun e => e.1 == k) with
  | none => rw [hf] at h; exact Option.noConfusion h
  | some a =>
    rw [hf] at h
    injection h with h2
    have ha : a.1 = k := by
      have := List.find?_some hf
      simpa using this
    have hmem := List.mem_of_find?_eq_some hf
    have h2' : a.2 = f := h2
    have : (a.1, a.2) = (k, f) := by rw [ha, h2']
    rw [← this]
    simpa using hmem

/-- A failed `lookupFlight` means no in-flight entry for the key. -/
theorem lookupFlight_none {fl : List (String × Coalesce.Flight)} {k : String}
    (h : Coalesce.lookupFlight fl k = none) :
    ∀ f, (k, f) ∉ fl := by
  unfold Coalesce.lookupFlight at h
  cases hf : fl.find? (fun e => e.1 == k) with
  | some a => rw [hf] at h; exact Option.noConfusion h
  | none =>
    intro f hmem
    have := List.find?_eq_none.mp hf (k, f) hmem
    simp at this

/-- Membership in the waiter-updated in-flight map comes either from the
updated entry for the key or from an untouched entry. -/
theorem mem_updateWaiters {fl : List (String × Coalesce.Flight)} {k : String}
    {g : Coalesce.Flight → Coalesce.Flight} {k' : String} {f' : Coalesce.Flight}
    (h : (k', f') ∈ fl.map (fun e => if e.1 = k then (e.1, g e.2) else e)) :
    (∃ f, (k', f) ∈ fl ∧ k' = k ∧ f' = g f) ∨ ((k', f') ∈ fl ∧ ¬ k' = k) := by
  rcases List.mem_map.mp h with ⟨e, he, heq⟩
  by_cases hk : e.1 = k
  · rw [if_pos hk] at heq
    injection heq with h1 h2
    left
    refine ⟨e.2, ?_, ?_, h2.symm⟩
    · rw [← h1]
      simpa using he
    · rw [← h1]; exact hk
  · rw [if_neg hk] at heq
    subst heq
    exact Or.inr ⟨he, by simpa using hk⟩

/-- The waiter update leaves the key list of the in-flight map unchanged. -/
theorem updateWaiters_keys (k : String) (g : Coalesce.Flight → Coalesce.Flight) :
    ∀ fl : List (String × Coalesce.Flight),
      (fl.map (fun e => if e.1 = k then (e.1, g e.2) else e)).map Prod.fst =
        fl.map Prod.fst
  | [] => rfl
  | e :: t => by
    simp only [List.map_cons, updateWaiters_keys k g t]
    congr 1
    by_cases h : e.1 = k <;> simp [h]

/-- In a list whose entries have pairwise-distinct indices, a member's
index is counted exactly once. -/
theorem countP_index_once {l : List (String × Nat)} {k : String} {j : Nat}
    (hmem : (k, j) ∈ l) (hpw : l.Pairwise (fun a b => a.2 ≠ b.2)) :
    l.countP (fun e => e.2 = j) = 1 := by
  induction l with
  | nil => exact absurd hmem (List.not_mem_nil _)
  | cons a t ih =>
    rcases List.pairwise_cons.mp hpw with ⟨hha, hpt⟩
    rcases List.mem_cons.mp hmem with h | h
    · have ha2 : a.2 = j := by rw [← h]
      have hz : t.countP (fun e => e.2 = j) = 0 := by
        rw [List.countP_eq_zero]
        intro b hb
        have := hha b hb
        rw [ha2] at this
        simpa using fun hbj => this hbj.symm
      rw [List.countP_cons, hz]
      simp [ha2]
    · have h1 := ih h hpt
      have ha2 : ¬ a.2 = j := by
        intro haj
        have := hha (k, j) h
        exact this haj
      rw [List.countP_cons, h1]
      simp [ha2]

/-- The empty coalescer state satisfies the invariant at time 0. -/
theorem Inv_init : Coalesce.Inv ⟨[], [], []⟩ 0 := by
  refine ⟨?_, ?_, ?_, ?_, ?_, ?_, ?_⟩ <;> simp [Coalesce.Inv]

/-- One coalescer step preserves the invariant, advancing the clock. -/
theorem step_inv {st st2 : Coalesce.CoState} {i : Nat} {e : Coalesce.Ev}
    (hinv : Coalesce.Inv st i) (hstep : Coalesce.step st i e = some st2) :
    Coalesce.Inv st2 (i + 1) := by
  obtain ⟨i1, i2, i3, i4, i5, i6, i7⟩ := hinv
  cases e with
  | start c k =>
    simp only [Coalesce.step] at hstep
    split at hstep
    · rename_i f hlk
      injection hstep with hst2
      subst hst2
      refine ⟨?_, ?_, ?_, i4, ?_, ?_, i7⟩
      · intro k' f' hmem
        rcases mem_updateWaiters hmem with ⟨g, hg, hkk, hf'⟩ | ⟨hmem2, _⟩
        · subst hkk
          subst hf'
          obtain ⟨hca, hw, hcr, hinvm⟩ := i1 k' g hg
          refine ⟨Nat.lt_succ_of_lt hca, ?_, List.mem_cons_of_mem _ hcr, hinvm⟩
          intro c' s' hw'
          rcases List.mem_cons.mp hw' with h | h
          · injection h with hc1 hc2
            rw [hc2]
            exact ⟨Nat.le_of_lt hca, Nat.lt_succ_self i⟩
          · obtain ⟨ha, hb⟩ := hw c' s' h
            exact ⟨ha, Nat.lt_succ_of_lt hb⟩
        · obtain ⟨hca, hw, hcr, hinvm⟩ := i1 k' f' hmem2
          refine ⟨Nat.lt_succ_of_lt hca, ?_, hcr, hinvm⟩
          intro c' s' hw'
          obtain ⟨ha, hb⟩ := hw c' s' hw'
          exact ⟨ha, Nat.lt_succ_of_lt hb⟩
      · show (List.map Prod.fst _).Nodup
        rw [updateWaiters_keys]
        exact i2
      · intro F hF
        obtain ⟨h1, h2, h3, h4, h5⟩ := i3 F hF
        exact ⟨h1, Nat.le_succ_of_le h2, h3, h4, h5⟩
      · intro F hF f' hmem
        rcases mem_updateWaiters hmem with ⟨g, hg, _, hf'⟩ | ⟨hmem2, _⟩
        · subst hf'
          exact i5 F hF g hg
        · exact i5 F hF f' hmem2
      · intro e3 he3
        exact Nat.lt_succ_of_lt (i6 e3 he3)
    · rename_i hlk
      injection hstep with hst2
      subst hst2
      refine ⟨?_, ?_, ?_, i4, ?_, ?_, ?_⟩
      · intro k' f' hmem
        rcases List.mem_cons.mp hmem with h | h
        · injection h with hk' hf'
          subst hk'
          subst hf'
          refine ⟨Nat.lt_succ_self i, ?_, ?_, ?_⟩
          · intro c' s' hw'
            rcases List.mem_cons.mp hw' with h2 | h2
            · injection h2 with hc1 hc2
              rw [hc2]
              exact ⟨Nat.le_refl i, Nat.lt_succ_self i⟩
            · exact absurd h2 (List.not_mem_nil _)
          · exact List.mem_cons_self _ _
          · exact List.mem_cons_self _ _
        · obtain ⟨hca, hw, hcr, hinvm⟩ := i1 k' f' h
          refine ⟨Nat.lt_succ_of_lt hca, ?_, hcr, List.mem_cons_of_mem _ hinvm⟩
          intro c' s' hw'
          obtain ⟨ha, hb⟩ := hw c' s' hw'
          exact ⟨ha, Nat.lt_succ_of_lt hb⟩
      · show (List.map Prod.fst _).Nodup
        rw [List.map_cons]
        refine List.nodup_cons.mpr ⟨?_, i2⟩
        intro hk
        rcases List.mem_map.mp hk with ⟨e2, he2, he2k⟩
        have he2k2 : e2.1 = k := he2k
        have hmem2 : (k, e2.2) ∈ st.flights := by
          rw [← he2k2]
          simpa using he2
        exact lookupFlight_none hlk e2.2 hmem2
      · intro F hF
        obtain ⟨h1, h2, h3, h4, h5⟩ := i3 F hF
        exact ⟨h1, Nat.le_succ_of_le h2, h3, h4, List.mem_cons_of_mem _ h5⟩
      · intro F hF f' hmem
        rcases List.mem_cons.mp hmem with h | h
        · injection h with hk' hf'
          subst hf'
          exact (i3 F hF).2.1
        · exact i5 F hF f' h
      · intro e3 he3
        rcases List.mem_cons.mp he3 with h | h
        · subst h
          exact Nat.lt_succ_self i
        · exact Nat.lt_succ_of_lt (i6 e3 h)
      · refine List.pairwise_cons.mpr ⟨?_, i7⟩
        intro b hb
        exact (Nat.ne_of_lt (i6 b hb)).symm
  | finish k r =>
    simp only [Coalesce.step] at hstep
    split at hstep
    · exact Option.noConfusion hstep
    · rename_i f hlk
      injection hstep with hst2
      subst hst2
      have hmemf : (k, f) ∈ st.flights := lookupFlight_mem hlk
      obtain ⟨hca, hwb, hcr, hinvm⟩ := i1 k f hmemf
      refine ⟨?_, ?_, ?_, ?_, ?_, ?_, i7⟩
      · intro k' f' hmem
        have hm2 := (List.mem_filter.mp hmem).1
        obtain ⟨h1, h2, h3, h4⟩ := i1 k' f' hm2
        refine ⟨Nat.lt_succ_of_lt h1, ?_, h3, h4⟩
        intro c' s' hw'
        obtain ⟨ha, hb⟩ := h2 c' s' hw'
        exact ⟨ha, Nat.lt_succ_of_lt hb⟩
      · show (List.map Prod.fst _).Nodup
        have hsub : List.Sublist ((Coalesce.removeFlight st.flights k).map Prod.fst)
            (st.flights.map Prod.fst) :=
          List.Sublist.map Prod.fst (List.filter_sublist st.flights)
        exact List.Nodup.sublist hsub i2
      · intro F hF
        rcases List.mem_cons.mp hF with h | h
        · subst h
          refine ⟨hca, Nat.le_succ_of_le (Nat.le_refl i), ?_, hcr, hinvm⟩
          intro c' s' hw'
          exact hwb c' s' hw'
        · obtain ⟨h1, h2, h3, h4, h5⟩ := i3 F h
          exact ⟨h1, Nat.le_succ_of_le h2, h3, h4, h5⟩
      · intro F1 hF1 F2 hF2 hk12
        rcases List.mem_cons.mp hF1 with h1 | h1 <;>
          rcases List.mem_cons.mp hF2 with h2 | h2
        · subst h1; subst h2
          exact Or.inl rfl
        · subst h1
          refine Or.inr (Or.inr ?_)
          have hk2 : F2.key = k := hk12.symm
          have hm : (F2.key, f) ∈ st.flights := by
            rw [hk2]
            exact hmemf
          exact i5 F2 h2 f hm
        · subst h2
          refine Or.inr (Or.inl ?_)
          have hk1 : F1.key = k := hk12
          have hm : (F1.key, f) ∈ st.flights := by
            rw [hk1]
            exact hmemf
          exact i5 F1 h1 f hm
        · exact i4 F1 h1 F2 h2 hk12
      · intro F hF f' hmem
        have hm2 := List.mem_filter.mp hmem
        rcases List.mem_cons.mp hF with h | h
        · subst h
          have : ¬ (k : String) = k := by simpa using hm2.2
          exact absurd rfl this
        · exact i5 F h f' hm2.1
      · intro e3 he3
        exact Nat.lt_succ_of_lt (i6 e3 he3)

/-- Running a valid trace from an invariant state reaches an invariant
state. -/
theorem runFrom_inv :
    ∀ (tr : List Coalesce.Ev) (st : Coalesce.CoState) (i : Nat)
      (st2 : Coalesce.CoState), Coalesce.Inv st i →
      Coalesce.runFrom st i tr = some st2 → ∃ j, Coalesce.Inv st2 j
  | [], st, i, st2, hinv, hrun => by
    unfold Coalesce.runFrom at hrun
    injection hrun with h
    exact ⟨i, h ▸ hinv⟩
  | e :: rest, st, i, st2, hinv, hrun => by
    unfold Coalesce.runFrom at hrun
    cases hs : Coalesce.step st i e with
    | none => rw [hs] at hrun; exact Option.noConfusion hrun
    | some st3 =>
      rw [hs] at hrun
      exact runFrom_inv rest st3 (i + 1) st2 (step_inv hinv hs) hrun

/-- Every state a valid trace runs to satisfies the invariant at some
time. -/
theorem run_inv {tr : List Coalesce.Ev} {st : Coalesce.CoState}
    (hrun : Coalesce.run tr = some st) : ∃ j, Coalesce.Inv st j :=
  runFrom_inv tr ⟨[], [], []⟩ 0 st Inv_init hrun

/-- C2: in any valid coalescer trace, for completed flights `F1`, `F2` on
the same key and calls `(c1, s1) ∈ F1`, `(c2, s2) ∈ F2` (a call's interval
runs from its start index to its flight's finish index): if the two calls
overlap, they are served by the same flight, receive the identical result,
and the producer was invoked exactly once for that flight; if instead call
2 starts at or after call 1's release, the two calls are served by
distinct producer invocations (distinct flight creations), each invoked
exactly once — sequential calls produce independently. -/
theorem coalescer_at_most_once_per_overlap (tr : List Coalesce.Ev)
    (st : Coalesce.CoState) (hrun : Coalesce.run tr = some st)
    (F1 F2 : Coalesce.FlightRecord) (hF1 : F1 ∈ st.done) (hF2 : F2 ∈ st.done)
    (hkey : F1.key = F2.key)
    (c1 s1 : Nat) (hw1 : (c1, s1) ∈ F1.waiters)
    (c2 s2 : Nat) (hw2 : (c2, s2) ∈ F2.waiters) :
    (s1 < F2.finishedAt → s2 < F1.finishedAt →
      F1 = F2 ∧ F1.result = F2.result ∧
      st.invs.countP (fun e => e.2 = F1.createdAt) = 1) ∧
    (F1.finishedAt ≤ s2 →
      F1.createdAt ≠ F2.createdAt ∧
      st.invs.countP (fun e => e.2 = F1.createdAt) = 1 ∧
      st.invs.countP (fun e => e.2 = F2.createdAt) = 1) := by
  obtain ⟨j, i1, i2, i3, i4, i5, i6, i7⟩ := run_inv hrun
  obtain ⟨hlt1, hle1, hwb1, hcr1, hinv1⟩ := i3 F1 hF1
  obtain ⟨hlt2, hle2, hwb2, hcr2, hinv2⟩ := i3 F2 hF2
  obtain ⟨hs1a, hs1b⟩ := hwb1 c1 s1 hw1
  obtain ⟨hs2a, hs2b⟩ := hwb2 c2 s2 hw2
  have hcount1 : st.invs.countP (fun e => e.2 = F1.createdAt) = 1 :=
    countP_index_once hinv1 i7
  have hcount2 : st.invs.countP (fun e => e.2 = F2.createdAt) = 1 :=
    countP_index_once hinv2 i7
  constructor
  · intro hov1 hov2
    have heq : F1 = F2 := by
      rcases i4 F1 hF1 F2 hF2 hkey with h | h | h
      · exact h
      · exact absurd (Nat.lt_of_lt_of_le (Nat.lt_of_le_of_lt hs2a hov2) h)
          (Nat.lt_irrefl _)
      · exact absurd (Nat.lt_of_lt_of_le (Nat.lt_of_le_of_lt hs1a hov1) h)
          (Nat.lt_irrefl _)
    exact ⟨heq, by rw [heq], hcount1⟩
  · intro hseq
    refine ⟨?_, hcount1, hcount2⟩
    rcases i4 F1 hF1 F2 hF2 hkey with h | h | h
    · subst h
      exact absurd (Nat.lt_of_le_of_lt hseq hs2b) (Nat.lt_irrefl _)
    · exact Nat.ne_of_lt (Nat.lt_of_lt_of_le hlt1 h)
    · exact (Nat.ne_of_lt (Nat.lt_of_lt_of_le hlt2 h)).symm

/-- Witness for C2 on the concrete trace `exTrace`: call 3 starts after
the flight serving calls 1 and 2 finished, so it is served by a distinct
producer invocation, and each of the two flights invoked the producer
exactly once. -/
theorem coalescer_at_most_once_per_overlap_witness :
    (0 : Nat) ≠ 3 ∧
    Coalesce.exState.invs.countP (fun e => e.2 = 0) = 1 ∧
    Coalesce.exState.invs.countP (fun e => e.2 = 3) = 1 := by
  have h := coalescer_at_most_once_per_overlap Coalesce.exTrace Coalesce.exState
    (by decide)
    ⟨"x", 1, 0, 2, 7, [(2, 1), (1, 0)]⟩ ⟨"x", 3, 3, 4, 9, [(3, 3)]⟩
    (by decide) (by decide) rfl
    1 0 (by decide) 3 3 (by decide)
  exact h.2 (by decide)
